import Mathlib

/-!
Verification of the AI-Powered Concall Summarizer pipeline.

The Python sources are shallowly embedded here.  Strings are modelled as
lists of Unicode code points (`List Nat`), which makes the ASCII-level
case folding and whitespace handling of the Python code (`str.lower`,
`str.strip`, `str.split`) directly arithmetical.  The helper `cp`
converts a Lean string literal to its code-point list so that concrete
test inputs can be written readably.
-/

/-- Code points of a string literal, used to write concrete inputs. -/
def cp (s : String) : List Nat := s.data.map Char.toNat

/-- Whitespace test on a code point, mirroring Python `str.isspace` for
the ASCII whitespace characters used by `split`/`strip`. -/
def isSpaceB (c : Nat) : Bool :=
  c == 32 || c == 9 || c == 10 || c == 13 || c == 11 || c == 12

/-- ASCII lower-casing of one code point, mirroring `str.lower`. -/
def lowerChar (c : Nat) : Nat :=
  if 65 ≤ c ∧ c ≤ 90 then c + 32 else c

/-- `str.strip`: remove leading and trailing whitespace. -/
def trimN (l : List Nat) : List Nat :=
  ((l.dropWhile isSpaceB).reverse.dropWhile isSpaceB).reverse

/-- Accumulator-based tokenizer: `tokenizeAux rest acc` processes the
remaining code points with `acc` holding the current (reversed) token. -/
def tokenizeAux : List Nat → List Nat → List (List Nat)
  | [], acc => if acc.isEmpty then [] else [acc.reverse]
  | c :: cs, acc =>
    if isSpaceB c then
      if acc.isEmpty then tokenizeAux cs [] else acc.reverse :: tokenizeAux cs []
    else tokenizeAux cs (c :: acc)

/-- Python `text.split()`: split on runs of whitespace, dropping empty
tokens. -/
def tokenize (s : List Nat) : List (List Nat) := tokenizeAux s []

/-- `listStartsWith pat s` holds when `pat` is an initial segment of `s`. -/
def listStartsWith : List Nat → List Nat → Bool
  | [], _ => true
  | _ :: _, [] => false
  | a :: as, b :: bs => a == b && listStartsWith as bs

/-- Python `pat in s` on strings: `pat` occurs contiguously inside `s`. -/
def strIn (pat : List Nat) : List Nat → Bool
  | [] => pat.isEmpty
  | c :: cs => listStartsWith pat (c :: cs) || strIn pat cs

/-- `" ".join(words)`. -/
def joinSpace (l : List (List Nat)) : List Nat := List.intercalate [32] l

/-- Loop body of `KeywordsManager.extract_keyword_context`: walk the
token list with its index `i`; on a match emit
`" ".join(words[max(i - cw, 0) : min(i + cw, len(words))])`.
Note `i - cw` is natural subtraction, which is exactly `max(i - cw, 0)`. -/
def ekcAux (keyword : List Nat) (words : List (List Nat)) (cw : Nat) :
    Nat → List (List Nat) → List (List Nat)
  | _, [] => []
  | i, w :: ws =>
    if strIn keyword (w.map lowerChar) then
      joinSpace ((words.drop (i - cw)).take (min (i + cw) words.length - (i - cw)))
        :: ekcAux keyword words cw (i + 1) ws
    else ekcAux keyword words cw (i + 1) ws

/-- `KeywordsManager.extract_keyword_context(text, keyword, context_words)`:
tokenize `text` by whitespace and, for every token whose lower-cased form
contains `keyword` as a substring, emit the surrounding window of tokens
joined by single spaces. -/
def extract_keyword_context (text keyword : List Nat) (context_words : Nat) :
    List (List Nat) :=
  let words := tokenize text
  ekcAux keyword words context_words 0 words

/-- The fixed keyword vocabulary of `KeywordsManager.__init__`. -/
def keywords : List String := [
  -- Financial performance
  "revenue", "topline", "bottomline", "EBITDA", "EBIT", "PAT", "net profit",
  "gross margin", "margins", "operating leverage", "cost pressure", "input cost",
  "realization", "pricing power", "price hike", "discounting",
  -- Costs & efficiency
  "raw material", "RM cost", "energy cost", "power cost", "gas prices",
  "opex", "cost optimization", "efficiency", "productivity", "cost leadership",
  -- Capex & expansion
  "capex", "expansion", "capacity utilization", "commissioning",
  "greenfield", "brownfield", "debottlenecking", "backward integration",
  -- Liquidity & balance sheet
  "free cash flow", "working capital", "cash conversion",
  "net debt", "debt reduction", "interest coverage", "leverage", "finance cost",
  "capital adequacy", "collections", "disbursement",
  -- Ratios
  "ROCE", "ROE", "asset turnover", "inventory days", "receivable days", "payable days",
  -- Business drivers
  "demand", "volume growth", "product mix", "premiumization",
  "channel mix", "SKU", "new launch", "market share",
  "domestic", "exports", "geo mix", "international business",
  -- Seasonality & cycles
  "festive season", "wedding season", "monsoon",
  "seasonality", "inventory build-up", "destocking", "restocking", "inventory correction",
  -- Macro & regulatory
  "headwinds", "tailwinds", "macro uncertainty", "regulatory environment",
  "GST", "budget impact", "PLI", "FAME", "subsidy", "tax rate", "duty impact", "customs",
  -- Management tone & outlook
  "guidance", "outlook", "visibility", "confident", "cautious", "optimistic",
  "conservative", "hopeful", "strong growth", "muted", "rebound", "softness",
  "moderation", "volatility", "stability",
  -- Supply chain & execution
  "supply chain", "logistics", "freight cost", "warehousing",
  "sourcing", "import substitution", "supply constraints", "project delays",
  -- Corporate actions
  "promoter holding", "pledge", "buyback", "dividend payout", "shareholding",
  -- Tech, ESG, innovation
  "AI adoption", "EV transition", "sustainability", "ESG", "carbon footprint",
  "green initiatives", "R&D", "innovation", "automation", "digital transformation",
  "cybersecurity", "cloud adoption", "patents", "benchmarking",
  -- Banking & Lending
  "retail banking", "corporate banking", "commercial banking", "wholesale banking", "private banking", "priority banking",
  "lending", "credit growth", "loan book", "loan growth", "loan disbursement", "retail loans", "corporate loans", "personal loans",
  "home loans", "auto loans", "gold loans", "SME loans", "MSME loans", "agri loans", "working capital loans",
  "NIM", "net interest margin", "spread", "yields", "deposit rates", "CASA", "current account", "savings account", "time deposits",
  "credit demand", "advances", "loan-to-deposit ratio", "credit cost", "slippages", "restructuring", "provisioning", "write-offs",
  -- Insurance
  "life insurance", "general insurance", "health insurance", "motor insurance", "crop insurance",
  "premiums", "gross written premium", "new business premium", "renewals", "first year premium",
  "claims ratio", "loss ratio", "combined ratio", "reinsurance", "policyholder surplus", "underwriting",
  "solvency ratio", "persistency ratio", "embedded value", "value of new business", "protection mix",
  -- Capital Markets
  "investment banking", "equity capital markets", "debt capital markets", "M&A advisory",
  "IPO", "FPO", "QIP", "buyback", "follow-on offering",
  "brokerage", "trading volumes", "clearing", "settlement", "custody services",
  "asset management", "mutual funds", "ETF", "AUM", "portfolio management services", "wealth management",
  -- Risk & Regulation
  "credit risk", "market risk", "liquidity risk", "operational risk",
  "capital adequacy ratio", "CRAR", "CET1", "Tier 1 capital", "Tier 2 capital",
  "risk weighted assets", "stress testing", "Basel norms", "Basel III",
  "NPA", "GNPA", "NNPA", "provision coverage ratio", "IFRS 9", "Ind AS", "SOX compliance",
  -- Payments & Fintech
  "digital payments", "UPI", "NEFT", "RTGS", "IMPS", "mobile wallets", "credit cards", "debit cards",
  "BNPL", "buy now pay later", "payment gateway", "POS terminals",
  "neobanks", "digital lending", "fintech partnerships", "API banking", "open banking", "CBDC", "blockchain in BFSI",
  -- Macroeconomic & BFSI Drivers
  "interest rates", "monetary policy", "repo rate", "reverse repo", "SLR", "CRR",
  "liquidity", "credit cycle", "GDP growth", "inflation", "employment", "fiscal deficit",
  "sovereign bonds", "yield curve", "foreign exchange", "rupee depreciation", "FII flows", "FDI inflows"
]

/-- `KeywordsManager.get_keywords`. -/
def get_keywords : List String := keywords

/-- One normalization step of `_norm_list` inside
`StockAnalysisPipeline.filter_stocks_to_process`: strip then lower-case. -/
def normStock (s : List Nat) : List Nat := (trimN s).map lowerChar

/-- `_norm_list(seq)`: strip each entry, drop the ones that become empty,
and lower-case the survivors. -/
def norm_list (seq : List (List Nat)) : List (List Nat) :=
  seq.filterMap (fun x => if trimN x = [] then none else some ((trimN x).map lowerChar))

/-- `StockAnalysisPipeline.filter_stocks_to_process(stock_list, existing_stocks)`:
if nothing was processed yet, return the list unchanged; otherwise keep the
normalized entries not present in the normalized processed set and map each
surviving key back to the first original entry with that key
(the `original_map` dictionary of the source). -/
def filter_stocks_to_process (stock_list existing_stocks : List (List Nat)) :
    List (List Nat) :=
  if existing_stocks.isEmpty then stock_list
  else
    let normalized_stock_list := norm_list stock_list
    let normalized_existing := norm_list existing_stocks
    let filtered_keys :=
      normalized_stock_list.filter (fun k => !(normalized_existing.contains k))
    filtered_keys.filterMap (fun k => stock_list.find? (fun s => normStock s == k))

/-- Mutable state of `GeminiManager`: the index of the API key in use and
the number of successfully summarized stocks. -/
structure GeminiState where
  current_key_index : Nat
  stocks_processed : Nat
  deriving DecidableEq, Repr

/-- `GeminiManager._check_and_rotate_key` for a pool of `p` keys and a
quota of `q` stocks per key. -/
def check_and_rotate_key (q p : Nat) (s : GeminiState) : GeminiState :=
  if 0 < s.stocks_processed ∧ s.stocks_processed % q = 0 then
    { s with current_key_index := (s.current_key_index + 1) % p }
  else s

/-- State effect of one completed (successful) `generate_summary` call:
the key check runs at the start of the call, then the counter is bumped
when the model call succeeds. -/
def completedCall (q p : Nat) (s : GeminiState) : GeminiState :=
  let s1 := check_and_rotate_key q p s
  { s1 with stocks_processed := s1.stocks_processed + 1 }

/-- Result of `GeminiManager.generate_summary`: `skipped` models the
early `return None` on empty keyword info, `text` a successful model
response, `errorText` the `"ERROR: ..."` string returned after the last
retry, and `noResult` the implicit `None` when the loop ends without
returning (only reachable when `max_retries ≤ 1`). -/
inductive SummaryOutcome where
  | skipped
  | text
  | errorText
  | noResult
  deriving DecidableEq, Repr

/-- The retry loop of `generate_summary`.  `outcomes n` tells whether the
model call made on attempt `n` succeeds; the result carries the outcome,
the number of model calls made, and the updated state. -/
def runAttempts (outcomes : Nat → Bool) :
    Nat → Nat → GeminiState → SummaryOutcome × Nat × GeminiState
  | _, 0, s => (SummaryOutcome.noResult, 0, s)
  | attempt, remaining + 1, s =>
    if outcomes attempt then
      (SummaryOutcome.text, 1, { s with stocks_processed := s.stocks_processed + 1 })
    else if attempt = 0 then
      let r := runAttempts outcomes (attempt + 1) remaining s
      (r.1, r.2.1 + 1, r.2.2)
    else (SummaryOutcome.errorText, 1, s)

/-- `GeminiManager.generate_summary(stock, keyword_info, max_retries)`:
rotate the key if due, return `None` when the stripped keyword info is
empty (making no model call), otherwise run the retry loop. -/
def generate_summary (q p : Nat) (s : GeminiState) (keyword_info : List Nat)
    (outcomes : Nat → Bool) (max_retries : Nat) :
    SummaryOutcome × Nat × GeminiState :=
  let s0 := check_and_rotate_key q p s
  if trimN keyword_info = [] then (SummaryOutcome.skipped, 0, s0)
  else runAttempts outcomes 0 max_retries s0

/-- The per-row cell filter of `StockAnalysisPipeline.generate_summaries`:
keep cells that are neither the `"-"` sentinel nor blank. -/
def fragmentsForRow (cells : List (List Nat)) : List (List Nat) :=
  cells.filter (fun v => !(v == cp "-") && !(trimN v == []))

/-- `"\n".join(fragments)`. -/
def joinNl (l : List (List Nat)) : List Nat := List.intercalate [10] l

/-- Contribution of one keyword row to the prompt digest: nothing when no
cell holds usable evidence, else the pin-marked header plus at most two
fragments. -/
def rowInfo (keyword : List Nat) (cells : List (List Nat)) : List Nat :=
  let text_fragments := fragmentsForRow cells
  if text_fragments.isEmpty then []
  else cp "\n📌 " ++ keyword ++ cp ":\n" ++ joinNl (text_fragments.take 2) ++ cp "\n"

/-- The `keyword_info` string assembled for a stock from its summary-table
rows (keyword, cells of the `File i` columns). -/
def buildKeywordInfo (rows : List (List Nat × List (List Nat))) : List Nat :=
  rows.foldl (fun acc r => acc ++ rowInfo r.1 r.2) []

/-- Input of `generate_summaries` for one stock: its name, its keyword
table rows, and the oracle telling which model attempts would succeed. -/
structure StockInput where
  stock : List Nat
  rows : List (List Nat × List (List Nat))
  outcomes : Nat → Bool

/-- Python truthiness of the value returned by `generate_summary`:
`None` is falsy, the response text and the `"ERROR: ..."` string truthy. -/
def summaryTruthy : SummaryOutcome → Bool
  | SummaryOutcome.text => true
  | SummaryOutcome.errorText => true
  | _ => false

/-- `StockAnalysisPipeline.generate_summaries`: per unique stock, build
the keyword digest, call `generate_summary`, and append a record only
when the returned summary is truthy. -/
def generate_summaries (q p max_retries : Nat) (inputs : List StockInput)
    (st : GeminiState) : List (List Nat × SummaryOutcome) × GeminiState :=
  inputs.foldl
    (fun acc inp =>
      let info := buildKeywordInfo inp.rows
      let r := generate_summary q p acc.2 info inp.outcomes max_retries
      (if summaryTruthy r.1 then acc.1 ++ [(inp.stock, r.1)] else acc.1, r.2.2))
    ([], st)

/-- Checkpoint file name of `run_pipeline`:
`f"{Config.TEMP_FILE_PREFIX}{batch_num}.csv"`. -/
def tempFileName (batch_num : Nat) : String :=
  "temp/Pipeline_Temp_Summary_Batch_" ++ toString batch_num ++ ".csv"

/-- The loop indices of `range(0, len(stock_list), batch_size)` in
`run_pipeline`; the count is `total_batches = (len + bs - 1) // bs`. -/
def batchStarts (numStocks batchSize : Nat) : List Nat :=
  List.range' 0 ((numStocks + batchSize - 1) / batchSize) batchSize

/-- The checkpoint files written by the batch loop of `run_pipeline`.
`succeeds b` abstracts whether batch `b` got transcript links, extracted
keywords, generated summaries, and saved successfully; on any failure the
loop `continue`s without writing the batch file. -/
def temp_files (numStocks batchSize : Nat) (succeeds : Nat → Bool) : List String :=
  (batchStarts numStocks batchSize).foldl
    (fun acc start =>
      let batch_num := start / batchSize + 1
      if succeeds batch_num then acc ++ [tempFileName batch_num] else acc)
    []

/-- Unfolding of one completed call on an explicit state. -/
theorem completedCall_state (q p i c : Nat) :
    completedCall q p ⟨i, c⟩ =
      if 0 < c ∧ c % q = 0 then ⟨(i + 1) % p, c + 1⟩ else ⟨i, c + 1⟩ := by
  simp only [completedCall, check_and_rotate_key]
  split <;> rfl

/-- Closed form of the state after `n + 1` completed calls from a fresh
state: the rotation that becomes due at completion number `quota` is only
applied at the start of the following call, so the index lags one call
behind the quota boundary. -/
theorem completedCall_iterate (q p i0 : Nat) (hp : i0 < p) :
    ∀ n : Nat, (completedCall q p)^[n + 1] ⟨i0, 0⟩ = ⟨(i0 + n / q) % p, n + 1⟩ := by
  intro n
  induction n with
  | zero =>
    rw [Function.iterate_succ_apply', Function.iterate_zero_apply, completedCall_state,
      if_neg (by simp)]
    simp [Nat.mod_eq_of_lt hp]
  | succ n ih =>
    rw [Function.iterate_succ_apply', ih, completedCall_state]
    by_cases hdvd : (n + 1) % q = 0
    · rw [if_pos ⟨Nat.succ_pos n, hdvd⟩]
      have h1 : (n + 1) / q = n / q + 1 := by
        rw [Nat.succ_div, if_pos (Nat.dvd_of_mod_eq_zero hdvd)]
      rw [h1, Nat.mod_add_mod, ← Nat.add_assoc]
    · rw [if_neg (fun h => hdvd h.2)]
      have h1 : (n + 1) / q = n / q := by
        rw [Nat.succ_div, if_neg (fun hd => hdvd (Nat.mod_eq_zero_of_dvd hd)),
          Nat.add_zero]
      rw [h1]

/-- Claim C6 (amended): starting from a fresh state (counter 0, index
below the pool size), the current key index is still unchanged after
exactly `quota` completed calls; the advance by 1 mod pool size shows up
only after `quota + 1` completed calls, and the index returns to its
starting value after `quota * pool_size + 1` completed calls. -/
theorem key_rotation_deferred (q p i0 : Nat) (hq : 0 < q) (hp : i0 < p) :
    ((completedCall q p)^[q] ⟨i0, 0⟩).current_key_index = i0 ∧
    ((completedCall q p)^[q + 1] ⟨i0, 0⟩).current_key_index = (i0 + 1) % p ∧
    ((completedCall q p)^[q * p + 1] ⟨i0, 0⟩).current_key_index = i0 := by
  have hiter := completedCall_iterate q p i0 hp
  refine ⟨?_, ?_, ?_⟩
  · have hq1 : q - 1 + 1 = q := Nat.succ_pred_eq_of_pos hq
    have h := hiter (q - 1)
    rw [hq1] at h
    rw [h]
    simp [Nat.div_eq_of_lt (Nat.sub_lt hq Nat.one_pos), Nat.mod_eq_of_lt hp]
  · rw [hiter q]
    simp [Nat.div_self hq]
  · rw [hiter (q * p)]
    rw [Nat.mul_div_cancel_left p hq]
    simp [Nat.add_mod_right, Nat.mod_eq_of_lt hp]

/-- Witness for C6 at quota 2, pool size 3, starting index 1. -/
theorem key_rotation_deferred_witness :
    0 < 2 ∧ 1 < 3 ∧
      (((completedCall 2 3)^[2] ⟨1, 0⟩).current_key_index = 1 ∧
       ((completedCall 2 3)^[2 + 1] ⟨1, 0⟩).current_key_index = (1 + 1) % 3 ∧
       ((completedCall 2 3)^[2 * 3 + 1] ⟨1, 0⟩).current_key_index = 1) :=
  ⟨by decide, by decide, key_rotation_deferred 2 3 1 (by decide) (by decide)⟩

/-- Counterexample to C6 as stated: with quota 1 and pool size 2, after
exactly 1 completed call the index is still 0, not advanced by 1. -/
theorem key_rotation_cex :
    ((completedCall 1 2)^[1] ⟨0, 0⟩).current_key_index = 0 ∧ (0 + 1) % 2 = 1 ∧ (0 : Nat) ≠ 1 := by
  decide

/-- The key check never touches the completion counter. -/
theorem check_and_rotate_key_processed (q p : Nat) (s : GeminiState) :
    (check_and_rotate_key q p s).stocks_processed = s.stocks_processed := by
  unfold check_and_rotate_key
  split <;> rfl

/-- The retry loop bumps the counter exactly when it returns a successful
text, never on failed attempts. -/
theorem runAttempts_processed (outcomes : Nat → Bool) :
    ∀ (remaining attempt : Nat) (s : GeminiState),
      (runAttempts outcomes attempt remaining s).2.2.stocks_processed =
        s.stocks_processed +
          (if (runAttempts outcomes attempt remaining s).1 = SummaryOutcome.text then 1 else 0) := by
  intro remaining
  induction remaining with
  | zero => intro attempt s; simp [runAttempts]
  | succ r ih =>
    intro attempt s
    unfold runAttempts
    by_cases h : outcomes attempt
    · simp [h]
    · simp only [h, Bool.false_eq_true, if_false]
      by_cases ha : attempt = 0
      · subst ha
        simp only [if_pos rfl]
        exact ih 1 s
      · simp [ha]

/-- Claim C7 (amended): `stocks_processed` grows by 1 exactly when the
call returns a successful text, and by 0 on skipped calls, failed
attempts and error returns - not by the number of attempts made. -/
theorem stocks_processed_success_only (q p max_retries : Nat) (st : GeminiState)
    (info : List Nat) (outcomes : Nat → Bool) :
    (generate_summary q p st info outcomes max_retries).2.2.stocks_processed =
      st.stocks_processed +
        (if (generate_summary q p st info outcomes max_retries).1 = SummaryOutcome.text
          then 1 else 0) := by
  unfold generate_summary
  by_cases h : trimN info = []
  · simp [h, check_and_rotate_key_processed]
  · simp only [h, if_neg, ite_false]
    rw [runAttempts_processed, check_and_rotate_key_processed]

/-- Counterexample to C7 as stated: a call whose 2 attempts both fail
makes 2 attempts yet leaves the counter at 0, not 0 + 2. -/
theorem stocks_processed_cex :
    (generate_summary 15 2 ⟨0, 0⟩ (cp "x") (fun _ => false) 2).2.1 = 2 ∧
    (generate_summary 15 2 ⟨0, 0⟩ (cp "x") (fun _ => false) 2).2.2.stocks_processed = 0 ∧
    (0 : Nat) ≠ 0 + 2 := by decide

/-- A successful first attempt produces exactly the `completedCall`
state transition used in the rotation analysis. -/
theorem generate_summary_success_state (q p mr : Nat) (st : GeminiState) (info : List Nat)
    (outcomes : Nat → Bool) (h1 : trimN info ≠ []) (h2 : outcomes 0 = true) :
    (generate_summary q p st info outcomes (mr + 1)).2.2 = completedCall q p st := by
  unfold generate_summary completedCall runAttempts
  simp [h1, h2]

/-- A row whose cells are all sentinel or blank contributes nothing. -/
theorem rowInfo_eq_nil {kw : List Nat} {cells : List (List Nat)}
    (h : ∀ c ∈ cells, c = cp "-" ∨ trimN c = []) : rowInfo kw cells = [] := by
  have hf : fragmentsForRow cells = [] := by
    unfold fragmentsForRow
    rw [List.filter_eq_nil_iff]
    intro c hc
    rcases h c hc with hd | ht
    · simp [hd]
    · simp [ht]
  simp [rowInfo, hf]

/-- Folding rows that each contribute nothing leaves the accumulator. -/
theorem buildKeywordInfo_foldl (rows : List (List Nat × List (List Nat))) :
    ∀ a : List Nat, (∀ r ∈ rows, rowInfo r.1 r.2 = []) →
      rows.foldl (fun acc r => acc ++ rowInfo r.1 r.2) a = a := by
  induction rows with
  | nil => intro a _; rfl
  | cons r rows ih =>
    intro a h
    simp only [List.foldl_cons, h r (List.mem_cons_self _ _), List.append_nil]
    exact ih a (fun r hr => h r (List.mem_cons_of_mem _ hr))

/-- An all-sentinel table assembles an empty keyword digest. -/
theorem buildKeywordInfo_eq_nil {rows : List (List Nat × List (List Nat))}
    (h : ∀ r ∈ rows, ∀ c ∈ r.2, c = cp "-" ∨ trimN c = []) :
    buildKeywordInfo rows = [] :=
  buildKeywordInfo_foldl rows [] (fun r hr => rowInfo_eq_nil (h r hr))

/-- Claim C8: for a stock whose summary-table rows contain only sentinel
`"-"` or blank cells, the assembled digest is empty, `generate_summary`
returns `None` having made no model call, and `generate_summaries`
appends no record for the stock. -/
theorem all_sentinel_skipped (q p max_retries : Nat) (st : GeminiState) (inp : StockInput)
    (h : ∀ r ∈ inp.rows, ∀ c ∈ r.2, c = cp "-" ∨ trimN c = []) :
    buildKeywordInfo inp.rows = [] ∧
    (generate_summary q p st (buildKeywordInfo inp.rows) inp.outcomes max_retries).1 =
      SummaryOutcome.skipped ∧
    (generate_summary q p st (buildKeywordInfo inp.rows) inp.outcomes max_retries).2.1 = 0 ∧
    (generate_summaries q p max_retries [inp] st).1 = [] := by
  have hb : buildKeywordInfo inp.rows = [] := buildKeywordInfo_eq_nil h
  have hg : ∀ s : GeminiState,
      generate_summary q p s (buildKeywordInfo inp.rows) inp.outcomes max_retries =
        (SummaryOutcome.skipped, 0, check_and_rotate_key q p s) := by
    intro s
    rw [hb]
    unfold generate_summary
    simp only []
    rw [if_pos (show trimN [] = [] from rfl)]
  refine ⟨hb, by rw [hg], by rw [hg], ?_⟩
  simp [generate_summaries, hg, summaryTruthy]

/-- Witness for C8 on a one-row all-sentinel table. -/
theorem all_sentinel_skipped_witness :
    (∀ r ∈ [(cp "revenue", [cp "-", cp "  "])], ∀ c ∈ r.2, c = cp "-" ∨ trimN c = []) ∧
    (generate_summaries 15 2 2
      [StockInput.mk (cp "A") [(cp "revenue", [cp "-", cp "  "])] (fun _ => true)]
      ⟨0, 0⟩).1 = [] :=
  ⟨by decide,
    (all_sentinel_skipped 15 2 2 ⟨0, 0⟩
      (StockInput.mk (cp "A") [(cp "revenue", [cp "-", cp "  "])] (fun _ => true))
      (by decide)).2.2.2⟩

/-- Generalized unrolling of the batch loop of `run_pipeline`. -/
theorem temp_files_foldl (batchSize : Nat) (hbs : 0 < batchSize) (succeeds : Nat → Bool) :
    ∀ (k i : Nat) (acc : List String),
      (List.range' (i * batchSize) k batchSize).foldl
        (fun acc start =>
          let batch_num := start / batchSize + 1
          if succeeds batch_num then acc ++ [tempFileName batch_num] else acc) acc =
      acc ++ (((List.range k).map (fun j => i + j + 1)).filter succeeds).map tempFileName := by
  intro k
  induction k with
  | zero => intro i acc; simp
  | succ k ih =>
    intro i acc
    rw [List.range'_succ, List.foldl_cons]
    have hstep : i * batchSize + batchSize = (i + 1) * batchSize := (Nat.succ_mul i batchSize).symm
    rw [hstep, ih (i + 1)]
    have hdiv : i * batchSize / batchSize + 1 = i + 1 := by
      rw [Nat.mul_div_cancel i hbs]
    have hfun : ((fun j => i + j + 1) ∘ Nat.succ) = fun j => i + 1 + j + 1 := by
      funext j
      simp only [Function.comp_apply, Nat.succ_eq_add_one]
      omega
    rw [List.range_succ_eq_map, List.map_cons, List.map_map, hfun]
    simp only [hdiv, Nat.add_zero]
    by_cases hs : succeeds (i + 1)
    · rw [if_pos hs, List.filter_cons_of_pos hs, List.map_cons]
      simp [List.append_assoc]
    · rw [if_neg hs, List.filter_cons_of_neg hs]

/-- Claim C9 (amended): checkpoint files are named prefix + batch number
+ `.csv` with batch numbers 1-indexed; the batch numbers written in one
run are the successful ones among `1, ..., total_batches` in increasing
order - contiguous from 1 exactly when every batch succeeds, while a
failed batch leaves a gap. -/
theorem temp_files_spec (numStocks batchSize : Nat) (succeeds : Nat → Bool)
    (hbs : 0 < batchSize) :
    temp_files numStocks batchSize succeeds =
      (((List.range ((numStocks + batchSize - 1) / batchSize)).map (fun b => b + 1)).filter
        succeeds).map tempFileName ∧
    ((∀ b, succeeds b = true) →
      temp_files numStocks batchSize succeeds =
        ((List.range ((numStocks + batchSize - 1) / batchSize)).map (fun b => b + 1)).map
          tempFileName) := by
  have h0 : temp_files numStocks batchSize succeeds =
      (((List.range ((numStocks + batchSize - 1) / batchSize)).map
        (fun j => 0 + j + 1)).filter succeeds).map tempFileName := by
    have h1 := temp_files_foldl batchSize hbs succeeds
      ((numStocks + batchSize - 1) / batchSize) 0 []
    rw [Nat.zero_mul, List.nil_append] at h1
    unfold temp_files batchStarts
    exact h1
  have hfun : (fun j => 0 + j + 1) = fun b : Nat => b + 1 := by
    funext j; omega
  rw [hfun] at h0
  refine ⟨h0, fun hall => ?_⟩
  rw [h0, List.filter_eq_self.mpr (fun a _ => hall a)]

/-- Witness for C9 with 3 stocks, batch size 2, only batch 1 succeeding. -/
theorem temp_files_spec_witness :
    0 < 2 ∧
    (temp_files 3 2 (fun b => b == 1) =
      (((List.range ((3 + 2 - 1) / 2)).map (fun b => b + 1)).filter (fun b => b == 1)).map
        tempFileName) ∧
    ((∀ b, (fun b : Nat => b == 1) b = true) →
      temp_files 3 2 (fun b => b == 1) =
        ((List.range ((3 + 2 - 1) / 2)).map (fun b => b + 1)).map tempFileName) :=
  ⟨by decide,
    (temp_files_spec 3 2 (fun b => b == 1) (by decide)).1,
    (temp_files_spec 3 2 (fun b => b == 1) (by decide)).2⟩

/-- Counterexample to C9 as stated: when batch 1 fails and batch 2
succeeds, the file for batch 2 exists but the file for batch 1 does not,
so the written batch numbers are not contiguous from 1. -/
theorem temp_files_cex :
    temp_files 2 1 (fun b => b == 2) = [tempFileName 2] ∧
    tempFileName 2 ∈ temp_files 2 1 (fun b => b == 2) ∧
    tempFileName 1 ∉ temp_files 2 1 (fun b => b == 2) ∧
    tempFileName 1 ≠ tempFileName 2 := by decide

/-- Membership in the normalized list. -/
theorem mem_norm_list {l : List (List Nat)} {k : List Nat} :
    k ∈ norm_list l ↔ ∃ s ∈ l, trimN s ≠ [] ∧ normStock s = k := by
  simp only [norm_list, List.mem_filterMap]
  constructor
  · rintro ⟨s, hs, hif⟩
    by_cases ht : trimN s = []
    · rw [if_pos ht] at hif; cases hif
    · rw [if_neg ht] at hif
      exact ⟨s, hs, ht, Option.some.inj hif⟩
  · rintro ⟨s, hs, ht, hn⟩
    exact ⟨s, hs, by rw [if_neg ht]; exact congrArg some hn⟩

/-- On lists with no blank entries, normalization is a plain map. -/
theorem norm_list_eq_map {l : List (List Nat)} (h : ∀ s ∈ l, trimN s ≠ []) :
    norm_list l = l.map normStock := by
  induction l with
  | nil => rfl
  | cons x xs ih =>
    rw [norm_list,
      List.filterMap_cons_some (by rw [if_neg (h x (List.mem_cons_self _ _))])]
    rw [List.map_cons]
    congr 1
    exact ih (fun s hs => h s (List.mem_cons_of_mem _ hs))

/-- The original-map lookup succeeds for every key of the list. -/
theorem find?_normStock_isSome {l : List (List Nat)} {k : List Nat}
    (hk : ∃ s ∈ l, normStock s = k) :
    ∃ x, l.find? (fun s => normStock s == k) = some x ∧ normStock x = k := by
  obtain ⟨s, hs, hn⟩ := hk
  cases hfind : l.find? (fun s => normStock s == k) with
  | none =>
    have hnone := List.find?_eq_none.mp hfind s hs
    rw [hn] at hnone
    simp at hnone
  | some x =>
    have hx := List.find?_some hfind
    exact ⟨x, rfl, by simpa using hx⟩

/-- Mapping the results of the original-map back to keys is the
identity on the key list. -/
theorem map_normStock_filterMap {keys : List (List Nat)} {g : List Nat → Option (List Nat)}
    (h : ∀ k ∈ keys, ∃ x, g k = some x ∧ normStock x = k) :
    (keys.filterMap g).map normStock = keys := by
  induction keys with
  | nil => rfl
  | cons j rest ih =>
    obtain ⟨x, hgj, hnx⟩ := h j (List.mem_cons_self _ _)
    rw [List.filterMap_cons_some hgj, List.map_cons, hnx]
    congr 1
    exact ih (fun k hk => h k (List.mem_cons_of_mem _ hk))

/-- Searching the mapped-back originals for a key finds exactly the
original-map entry of that key. -/
theorem find?_filterMap_key {keys : List (List Nat)} {g : List Nat → Option (List Nat)}
    (h : ∀ j ∈ keys, ∃ x, g j = some x ∧ normStock x = j) :
    ∀ {k : List Nat}, k ∈ keys →
      (keys.filterMap g).find? (fun s => normStock s == k) = g k := by
  induction keys with
  | nil => intro k hk; cases hk
  | cons j rest ih =>
    intro k hk
    obtain ⟨x, hgj, hnx⟩ := h j (List.mem_cons_self _ _)
    rw [List.filterMap_cons_some hgj]
    by_cases hkj : k = j
    · subst hkj
      rw [List.find?_cons_of_pos _ (by simp [hnx]), hgj]
    · rw [List.find?_cons_of_neg _
        (by simp only [hnx, beq_iff_eq]; exact fun he => hkj he.symm)]
      have hkrest : k ∈ rest := by
        rcases List.mem_cons.mp hk with rfl | hr
        · exact absurd rfl hkj
        · exact hr
      exact ih (fun j hj => h j (List.mem_cons_of_mem _ hj)) hkrest

/-- Core of the filter correctness: with pairwise distinct normalized
forms, filtering keys and mapping back through the original map is an
ordinary filter on the original list. -/
theorem keys_filterMap_eq (l : List (List Nat)) (pr : List Nat → Bool)
    (hd : (l.map normStock).Nodup) :
    ((l.map normStock).filter pr).filterMap
        (fun k => l.find? (fun s => normStock s == k)) =
      l.filter (fun s => pr (normStock s)) := by
  induction l with
  | nil => rfl
  | cons x xs ih =>
    rw [List.map_cons] at hd
    have hd1 := (List.nodup_cons.mp hd).1
    have hd2 := (List.nodup_cons.mp hd).2
    have hcongr : ∀ k ∈ (xs.map normStock).filter pr,
        (x :: xs).find? (fun s => normStock s == k) =
          xs.find? (fun s => normStock s == k) := by
      intro k hkf
      have hkmem : k ∈ xs.map normStock := List.mem_of_mem_filter hkf
      have hne : normStock x ≠ k := fun he => hd1 (he ▸ hkmem)
      rw [List.find?_cons_of_neg _ (by simp [hne])]
    rw [List.map_cons, List.filter_cons, List.filter_cons]
    by_cases hp : pr (normStock x)
    · rw [if_pos hp, if_pos hp]
      have hfx : (fun k => List.find? (fun s => normStock s == k) (x :: xs)) (normStock x) =
          some x := List.find?_cons_of_pos _ (by simp)
      rw [@List.filterMap_cons_some _ _ (fun k => List.find? (fun s => normStock s == k) (x :: xs))
        (normStock x) (List.filter pr (List.map normStock xs)) x hfx]
      congr 1
      rw [List.filterMap_congr hcongr]
      exact ih hd2
    · rw [if_neg hp, if_neg hp, List.filterMap_congr hcongr]
      exact ih hd2

/-- Claim C4 (amended): on stock lists whose entries are non-blank and whose
normalized forms are pairwise distinct, `filter_stocks_to_process`
preserves order and casing and removes exactly the entries whose
normalized form is in the normalized processed set. -/
theorem filter_stocks_correct (l e : List (List Nat))
    (hb : ∀ s ∈ l, trimN s ≠ [])
    (hd : (l.map normStock).Nodup) :
    filter_stocks_to_process l e =
      l.filter (fun s => !((norm_list e).contains (normStock s))) := by
  unfold filter_stocks_to_process
  by_cases he : e.isEmpty
  · rw [if_pos he]
    have hel : e = [] := List.isEmpty_iff.mp he
    subst hel
    have : norm_list ([] : List (List Nat)) = [] := rfl
    rw [this]
    simp [List.filter_eq_self]
  · rw [if_neg he]
    simp only [norm_list_eq_map hb]
    exact keys_filterMap_eq l _ hd

/-- Witness for C4: "TCS" is removed when the processed set holds
"tcs", order and casing of the survivors preserved. -/
theorem filter_stocks_correct_witness :
    (∀ s ∈ [cp "TCS", cp "Infy"], trimN s ≠ []) ∧
    (([cp "TCS", cp "Infy"].map normStock).Nodup) ∧
    filter_stocks_to_process [cp "TCS", cp "Infy"] [cp "tcs"] =
      [cp "TCS", cp "Infy"].filter
        (fun s => !((norm_list [cp "tcs"]).contains (normStock s))) :=
  ⟨by decide, by decide,
    filter_stocks_correct [cp "TCS", cp "Infy"] [cp "tcs"] (by decide) (by decide)⟩

/-- Counterexample to C4 as stated: a blank universe entry is removed
even though its normalized form is not in the processed set. -/
theorem filter_stocks_cex :
    filter_stocks_to_process [cp "", cp "TCS"] [cp "zz"] = [cp "TCS"] ∧
    normStock (cp "") ∉ norm_list [cp "zz"] ∧
    cp "" ∉ filter_stocks_to_process [cp "", cp "TCS"] [cp "zz"] ∧
    cp "" ∈ [cp "", cp "TCS"] := by decide

/-- Claim C5: filtering twice with the same processed set gives the same
result as filtering once, for every stock list and processed set. -/
theorem filter_stocks_idempotent (l e : List (List Nat)) :
    filter_stocks_to_process (filter_stocks_to_process l e) e =
      filter_stocks_to_process l e := by
  by_cases he : e.isEmpty
  · unfold filter_stocks_to_process
    rw [if_pos he, if_pos he]
  · have hfdef : ∀ m : List (List Nat),
        filter_stocks_to_process m e =
          ((norm_list m).filter (fun k => !((norm_list e).contains k))).filterMap
            (fun k => m.find? (fun s => normStock s == k)) := by
      intro m
      unfold filter_stocks_to_process
      rw [if_neg he]
    have hkeyhyp : ∀ j ∈ (norm_list l).filter (fun k => !((norm_list e).contains k)),
        ∃ x, l.find? (fun s => normStock s == j) = some x ∧ normStock x = j := by
      intro j hj
      obtain ⟨s, hs, _, hn⟩ := mem_norm_list.mp (List.mem_of_mem_filter hj)
      exact find?_normStock_isSome ⟨s, hs, hn⟩
    have hR : filter_stocks_to_process l e =
        ((norm_list l).filter (fun k => !((norm_list e).contains k))).filterMap
          (fun k => l.find? (fun s => normStock s == k)) := hfdef l
    have hmapR : (filter_stocks_to_process l e).map normStock =
        (norm_list l).filter (fun k => !((norm_list e).contains k)) := by
      rw [hR]
      exact map_normStock_filterMap hkeyhyp
    have hRtrim : ∀ x ∈ filter_stocks_to_process l e, trimN x ≠ [] := by
      intro x hx hts
      have hxk : normStock x ∈ (norm_list l).filter (fun k => !((norm_list e).contains k)) :=
        hmapR ▸ List.mem_map_of_mem normStock hx
      obtain ⟨s, _, hst, hsn⟩ := mem_norm_list.mp (List.mem_of_mem_filter hxk)
      have hkne : normStock x ≠ [] := by
        rw [← hsn] at *
        intro hnil
        exact hst (by simpa [normStock, List.map_eq_nil_iff] using hsn.symm.trans hnil)
      apply hkne
      show (trimN x).map lowerChar = []
      rw [hts]
      rfl
    have hNR : norm_list (filter_stocks_to_process l e) =
        (norm_list l).filter (fun k => !((norm_list e).contains k)) := by
      rw [norm_list_eq_map hRtrim, hmapR]
    have hkeysprop : ∀ k ∈ (norm_list l).filter (fun k => !((norm_list e).contains k)),
        (!((norm_list e).contains k)) = true :=
      fun k hk => (List.mem_filter.mp hk).2
    have hfind : ∀ k ∈ (norm_list l).filter (fun k => !((norm_list e).contains k)),
        (filter_stocks_to_process l e).find? (fun s => normStock s == k) =
          l.find? (fun s => normStock s == k) := by
      intro k hk
      rw [hR]
      exact find?_filterMap_key hkeyhyp hk
    rw [hfdef (filter_stocks_to_process l e), hNR,
      List.filter_eq_self.mpr hkeysprop, List.filterMap_congr hfind]
    exact hR.symm

/-- Characterization of the whitespace test. -/
theorem isSpaceB_iff (c : Nat) :
    isSpaceB c = true ↔ c = 32 ∨ c = 9 ∨ c = 10 ∨ c = 13 ∨ c = 11 ∨ c = 12 := by
  simp only [isSpaceB, Bool.or_eq_true, beq_iff_eq]
  tauto

/-- Lower-casing never turns whitespace into non-whitespace or back. -/
theorem lowerChar_space (c : Nat) : isSpaceB (lowerChar c) = isSpaceB c := by
  unfold lowerChar
  split
  · next h =>
    have h1 : isSpaceB (c + 32) = false := by
      rw [← Bool.not_eq_true, isSpaceB_iff]; omega
    have h2 : isSpaceB c = false := by
      rw [← Bool.not_eq_true, isSpaceB_iff]; omega
    rw [h1, h2]
  · rfl

/-- Characters of an initial segment occur in the string. -/
theorem mem_of_listStartsWith {pat s : List Nat} (h : listStartsWith pat s = true) :
    ∀ c ∈ pat, c ∈ s := by
  induction pat generalizing s with
  | nil => intro c hc; cases hc
  | cons a as ih =>
    cases s with
    | nil => simp [listStartsWith] at h
    | cons b bs =>
      simp only [listStartsWith, Bool.and_eq_true, beq_iff_eq] at h
      intro c hc
      rcases List.mem_cons.mp hc with rfl | hc
      · exact h.1 ▸ List.mem_cons_self _ _
      · exact List.mem_cons_of_mem _ (ih h.2 c hc)

/-- Characters of a substring occur in the string. -/
theorem mem_of_strIn {pat s : List Nat} (h : strIn pat s = true) :
    ∀ c ∈ pat, c ∈ s := by
  induction s with
  | nil =>
    simp only [strIn, List.isEmpty_iff] at h
    subst h; intro c hc; cases hc
  | cons b bs ih =>
    simp only [strIn, Bool.or_eq_true] at h
    rcases h with h | h
    · exact mem_of_listStartsWith h
    · intro c hc; exact List.mem_cons_of_mem _ (ih h c hc)

/-- Invariant of the tokenizer: emitted tokens hold no whitespace. -/
theorem tokenizeAux_no_space :
    ∀ (l acc : List Nat), (∀ c ∈ acc, isSpaceB c = false) →
      ∀ t ∈ tokenizeAux l acc, ∀ c ∈ t, isSpaceB c = false := by
  intro l
  induction l with
  | nil =>
    intro acc hacc t ht
    simp only [tokenizeAux] at ht
    split at ht
    · cases ht
    · rcases List.mem_singleton.mp ht with rfl
      intro c hc; exact hacc c (List.mem_reverse.mp hc)
  | cons a as ih =>
    intro acc hacc t ht
    simp only [tokenizeAux] at ht
    split at ht
    · split at ht
      · exact ih [] (by intro c hc; cases hc) t ht
      · rcases List.mem_cons.mp ht with rfl | ht
        · intro c hc; exact hacc c (List.mem_reverse.mp hc)
        · exact ih [] (by intro c hc; cases hc) t ht
    · next hsp =>
      refine ih (a :: acc) ?_ t ht
      intro c hc
      rcases List.mem_cons.mp hc with rfl | hc
      · exact Bool.not_eq_true _ ▸ hsp
      · exact hacc c hc

/-- Tokens produced by whitespace splitting contain no whitespace. -/
theorem tokenize_no_space (s : List Nat) :
    ∀ t ∈ tokenize s, ∀ c ∈ t, isSpaceB c = false :=
  tokenizeAux_no_space s [] (by intro c hc; cases hc)

/-- No token can contain a keyword that has a whitespace character. -/
theorem ekcAux_eq_nil {keyword : List Nat} {c : Nat} (hc : c ∈ keyword)
    (hsp : isSpaceB c = true) (words : List (List Nat)) (cw : Nat) :
    ∀ (i : Nat) (ws : List (List Nat)),
      (∀ w ∈ ws, ∀ d ∈ w, isSpaceB d = false) →
      ekcAux keyword words cw i ws = [] := by
  intro i ws
  induction ws generalizing i with
  | nil => intro _; rfl
  | cons w ws ih =>
    intro hws
    have hmatch : strIn keyword (w.map lowerChar) = false := by
      by_contra hne
      have htrue : strIn keyword (w.map lowerChar) = true := by
        revert hne; cases strIn keyword (w.map lowerChar) <;> simp
      have hcmem : c ∈ w.map lowerChar := mem_of_strIn htrue c hc
      rcases List.mem_map.mp hcmem with ⟨d, hd, rfl⟩
      have hls := lowerChar_space d
      rw [hsp, hws w (List.mem_cons_self _ _) d hd] at hls
      exact Bool.false_ne_true hls.symm
    simp only [ekcAux, hmatch, Bool.false_eq_true, if_false]
    exact ih (i + 1) (fun w hw => hws w (List.mem_cons_of_mem _ hw))

/-- Claim C10: a keyword containing a whitespace character (every
multi-word vocabulary entry) matches no token of any text, so
`extract_keyword_context` returns the empty sequence on every input. -/
theorem multiword_keyword_no_context (keyword text : List Nat) (cw : Nat)
    (h : ∃ c ∈ keyword, isSpaceB c = true) :
    extract_keyword_context text keyword cw = [] := by
  obtain ⟨c, hc, hsp⟩ := h
  unfold extract_keyword_context
  exact ekcAux_eq_nil hc hsp _ cw 0 _ (tokenize_no_space text)

/-- Witness for C10 on the vocabulary entry "net profit". -/
theorem multiword_keyword_no_context_witness :
    (∃ c ∈ cp "net profit", isSpaceB c = true) ∧
      extract_keyword_context (cp "the net profit grew") (cp "net profit") 50 = [] :=
  ⟨by decide,
    multiword_keyword_no_context (cp "net profit") (cp "the net profit grew") 50 (by decide)⟩

/-- Claim C1: evaluation at the failing input. With window 1 on text
"a b c" and keyword "b", the code returns the snippet "a b" - the
slice end `min(i + window, len)` is exclusive, so the token at position
`i + window` is dropped, contradicting the documented window of N words
before and after (which would give "a b c"). -/
theorem window_off_by_one :
    extract_keyword_context (cp "a b c") (cp "b") 1 = [cp "a b"] ∧ cp "a b" ≠ cp "a b c" := by
  decide

/-- Claim C3: evaluation at the failing input. The code tests the raw
keyword against the lower-cased token, so the upper-case keyword
"EBITDA" never matches the token "ebitda" while the lower-cased form
of the same keyword does. -/
theorem uppercase_keyword_never_matches :
    extract_keyword_context (cp "ebitda margin") (cp "EBITDA") 50 = [] ∧
    extract_keyword_context (cp "ebitda margin") (cp "ebitda") 50 = [cp "ebitda margin"] := by
  decide

set_option maxRecDepth 10000 in
set_option maxHeartbeats 2000000 in
/-- Claim C2 (amended): every string of the fixed keyword list occurs
exactly once except "buyback", which occurs exactly twice. -/
theorem keywords_nodup_except_buyback :
    (keywords.filter (fun s => s != "buyback")).Nodup ∧ keywords.count "buyback" = 2 := by
  decide

/-- Counterexample to C2 as stated: positions 108 and 191 of the keyword
list hold the same string "buyback". -/
theorem keywords_buyback_positions :
    keywords.get? 108 = some "buyback" ∧ keywords.get? 191 = some "buyback" ∧
      (108 : Nat) ≠ 191 := by
  decide
